import Mathlib

/-!
Verification of the clinicalBERT MIMIC preprocessing pipeline
(`src/mimic_preprocess.py`) against its natural-language specification.

The Python pipeline is shallowly embedded: pandas Series/DataFrame columns
become Lean lists, timestamps become integer epoch-seconds, fractional-day
quantities become rationals, NaN/NaT become `Option`, and Python dicts become
association lists (`List (String × String)`, unique keys, `List.lookup`).
Each definition mirrors one function or one block of top-level statements of
the source file.
-/

/-! ### Order-preserving first-occurrence deduplication

Several places in the source build a list by appending an element only when it
is not already present (`if entry in ...: pass else: append`).  `dedupGo acc l`
is that loop with accumulator `acc`; `dedupKeepFirst` starts it empty. -/

def dedupGo {α : Type} [DecidableEq α] : List α → List α → List α
  | acc, [] => acc
  | acc, a :: t => dedupGo (if a ∈ acc then acc else acc ++ [a]) t

def dedupKeepFirst {α : Type} [DecidableEq α] (l : List α) : List α :=
  dedupGo [] l

/-! ### NoteChunker (`preprocessing`, source lines 399-423)

`x = text.split(); n = len(x)//318`; chunk `j` is `x[j*318:(j+1)*318]` for
`j in range(n)`; a final chunk `x[-(len(x)%318):]` (that is, the last
`len(x) mod 318` tokens) is appended only when `len(x) % 318 > 10`. -/

def chunkText (x : List String) : List (List String) :=
  let n := x.length / 318
  ((List.range n).map fun j => (x.drop (j * 318)).take 318) ++
    (if x.length % 318 > 10 then [x.drop (n * 318)] else [])

/-- Python `str.split()` (no separator argument): split on runs of whitespace,
dropping empty pieces; `cur` holds the characters of the token being read,
in reverse. -/
def pySplitGo (cur : List Char) : List Char → List String
  | [] => if cur.isEmpty then [] else [String.mk cur.reverse]
  | c :: rest =>
      if c.isWhitespace then
        if cur.isEmpty then pySplitGo [] rest
        else String.mk cur.reverse :: pySplitGo [] rest
      else pySplitGo (c :: cur) rest

def pySplit (s : String) : List String :=
  pySplitGo [] s.data

/-! ### CodeVocabulary (`featureToIdx`, source lines 33-43)

`feature2idx = {"0": 0}; idx = 1`; each entry already present is skipped,
otherwise it is bound to the next index.  A Python dict preserves insertion
order and has unique keys, so it is embedded as an association list with
`List.lookup`. -/

def featureToIdxGo : List String → List (String × ℕ) → ℕ → List (String × ℕ)
  | [], d, _ => d
  | entry :: rest, d, idx =>
      if (d.lookup entry).isSome then featureToIdxGo rest d idx
      else featureToIdxGo rest (d ++ [(entry, idx)]) (idx + 1)

def featureToIdx (features : List String) : List (String × ℕ) :=
  featureToIdxGo features [(("0"), 0)] 1

/-- The keys of the entries `featureToIdxGo` adds: the input entries not yet
in `seen`, first occurrences only, in input order. -/
def newKeys (seen : List String) : List String → List String
  | [] => []
  | a :: t => if a ∈ seen then newKeys seen t else a :: newKeys (a :: seen) t

/-- Pair each element of a list with consecutive indices starting at `idx`. -/
def withIdx (idx : ℕ) : List String → List (String × ℕ)
  | [] => []
  | s :: t => (s, idx) :: withIdx (idx + 1) t

/-! ### ICDHierarchyReducer and ClinicalCodeMapper
(`getICDlevel1`, source lines 46-58, and the per-row loop of
`map_ICD9_to_CCS`, source lines 134-149)

Python slicing `icd9_code[:k]` is `String.take`; the implicit `return None`
for codes with neither prefix becomes `Option.none`.  The `ICD9_CODE` list of
one row is processed by appending the hierarchy reduction only when absent
(dedup) and appending the CCS group code unconditionally on a successful
lookup (`KeyError` is swallowed). -/

def getICDlevel1 (icd9code : String) : Option String :=
  if icd9code.startsWith ("P") then some (icd9code.take 4)
  else if icd9code.startsWith ("D") then
    if icd9code.startsWith ("D_E") then some (icd9code.take 6)
    else some (icd9code.take 5)
  else none

def mapRowGo (icd9TOCCSMap : List (String × String))
    (small : List (Option String)) (ccs : List String) :
    List String → List (Option String) × List String
  | [] => (small, ccs)
  | icd :: rest =>
      let s := getICDlevel1 icd
      let small' := if s ∈ small then small else small ++ [s]
      let ccs' := match icd9TOCCSMap.lookup icd with
        | some c => ccs ++ [c]
        | none => ccs
      mapRowGo icd9TOCCSMap small' ccs' rest

/-- One iteration of the `for row in pandasDataFrame.itertuples()` loop of
`map_ICD9_to_CCS`: the row's `(tempSmallICDCodeList, tempCCSCodeList)`. -/
def mapICD9toCCSRow (icd9TOCCSMap : List (String × String)) (icds : List String) :
    List (Option String) × List String :=
  mapRowGo icd9TOCCSMap [] [] icds

/-! ### MedicationNormalizer (`get_unique_ordered_medication`, source
lines 177-219)

A raw medication value is an NDC read from the prescriptions table: an
integral float or NaN, embedded as `Option Int` (`none` = NaN, `int(value)`
is the identity on the integral content).  `RxNormNdcs = set(ndcCuiMap.keys())`,
so validity and the concept lookup consult the same dict, embedded as an
association list.

Two Python behaviours reproduced faithfully:
* `value not in used_medications` is always true for NaN (`nan != nan`, and
  each row entry is a freshly boxed float object), so a NaN entry always runs
  the first-occurrence branch; `used_medications` therefore only ever
  matches non-NaN values and is embedded as the `List Int` field `seen`.
* `value = 0` (the sentinel replacement) is executed before the
  `ndcCuiMap[str(int(value))]` concept lookup, so on a first occurrence the
  lookup key is the post-replacement value. -/

structure MedState where
  seen : List Int
  meds : List String
  cuis : List String
deriving DecidableEq, Repr

/-- `try: cui = ndcCuiMap[str(int(value))] ... except KeyError: pass` with the
`if cui not in temp_cuis_list` dedup append. -/
def cuiStep (ndcCuiMap : List (String × String)) (cuis : List String)
    (v : Int) : List String :=
  match ndcCuiMap.lookup (toString v) with
  | some cui => if cui ∈ cuis then cuis else cuis ++ [cui]
  | none => cuis

/-- The body of `for value in pandasDataFrame.loc[index, column]`. -/
def medStep (ndcCuiMap : List (String × String)) (st : MedState)
    (value : Option Int) : MedState :=
  match value with
  | none =>
      { st with cuis := cuiStep ndcCuiMap st.cuis 0 }
  | some a =>
      if a ∈ st.seen then
        { st with cuis := cuiStep ndcCuiMap st.cuis a }
      else
        if a = 0 ∨ (ndcCuiMap.lookup (toString a)).isNone then
          { seen := a :: st.seen, meds := st.meds,
            cuis := cuiStep ndcCuiMap st.cuis 0 }
        else
          { seen := a :: st.seen, meds := st.meds ++ [toString a],
            cuis := cuiStep ndcCuiMap st.cuis a }

/-- One admission's `(unique_medication, temp_cuis_list)` computation. -/
def processMeds (ndcCuiMap : List (String × String))
    (values : List (Option Int)) : MedState :=
  values.foldl (medStep ndcCuiMap) ⟨[], [], []⟩

/-- A raw value is kept for the deduplicated code list iff it is present,
non-zero and its string form is a key of the NDC universe. -/
def validNdc (ndcCuiMap : List (String × String)) (value : Option Int) :
    Option Int :=
  match value with
  | none => none
  | some a =>
      if a ≠ 0 ∧ (ndcCuiMap.lookup (toString a)).isSome then some a else none

/-- The concept-list computation as the spec describes it: the lookup key is
the ORIGINAL coerced integer value, before any sentinel replacement (a
missing value has no coerced integer value and contributes nothing). -/
def cuisSpecStep (ndcCuiMap : List (String × String)) (acc : List String)
    (value : Option Int) : List String :=
  match value with
  | some a =>
      match ndcCuiMap.lookup (toString a) with
      | some c => if c ∈ acc then acc else acc ++ [c]
      | none => acc
  | none => acc

/-- Modelled from the spec (§4.4): per-admission concept list resolved
against the pre-replacement values. -/
def cuisPreReplacement (ndcCuiMap : List (String × String))
    (vs : List (Option Int)) : List String :=
  vs.foldl (cuisSpecStep ndcCuiMap) []

/-! ### The `get_unique_ordered_medication` frame effect (source
lines 189-219)

The Python function walks `pandasDataFrame.index`, writes each row's
deduplicated list back into that row's medication column
(`pandasDataFrame.at[index, column] = unique_medication`) touching no other
column, and accumulates `unique_cuis_list`.  A row is embedded with its
medication column plus the admission id standing for the untouched columns;
the mutated frame is the returned one. -/

structure MedRow where
  hadmId : Int
  ndc : List (Option Int)

structure MedRowOut where
  hadmId : Int
  ndc : List String
deriving DecidableEq, Repr

def get_unique_ordered_medication (ndcCuiMap : List (String × String))
    (df : List MedRow) : List MedRowOut × List (List String) :=
  df.foldl
    (fun acc row =>
      (acc.1 ++ [⟨row.hadmId, (processMeds ndcCuiMap row.ndc).meds⟩],
       acc.2 ++ [(processMeds ndcCuiMap row.ndc).cuis]))
    ([], [])

/-! ### AdmissionLabeler (source lines 223-256)

One patient's admissions, already sorted by `ADMITTIME` (the
`sort_values(['SUBJECT_ID','ADMITTIME'])` + `groupby('SUBJECT_ID')` make the
shift/fill steps act independently inside each patient's chronologically
sorted block).  Timestamps are epoch seconds (`Int`); the derived
`NEXT_ADMITTIME` column is `Option Int` with `none` for `NaT`. -/

structure AdmissionRow where
  admitTime : Int
  disch : Int
  admType : String
deriving DecidableEq, Repr

/-- `groupby('SUBJECT_ID').ADMITTIME.shift(-1)` paired with
`.ADMISSION_TYPE.shift(-1)`: position `i` carries admission `i+1` (or `none`
on the group's last row). -/
def shiftNext : List AdmissionRow → List (Option AdmissionRow)
  | [] => []
  | [_] => [none]
  | _ :: b :: t => some b :: shiftNext (b :: t)

/-- `df_adm.loc[NEXT_ADMISSION_TYPE == 'ELECTIVE', 'NEXT_ADMITTIME'] = pd.NaT`
applied to the shifted column, keeping the admission time otherwise. -/
def nullElective (col : List (Option AdmissionRow)) : List (Option Int) :=
  col.map fun o =>
    match o with
    | some r => if r.admType = ("ELECTIVE") then none else some r.admitTime
    | none => none

def firstSome {α : Type} : List (Option α) → Option α
  | [] => none
  | some a :: _ => some a
  | none :: t => firstSome t

/-- `fillna(method='bfill')` on one column: each missing entry takes the
next present value below it (within the group). -/
def bfill {α : Type} : List (Option α) → List (Option α)
  | [] => []
  | x :: t =>
      (match x with
       | some a => some a
       | none => firstSome t) :: bfill t

/-- The final `NEXT_ADMITTIME` column of one patient's sorted block:
shift(-1), null out elective successors, then backward-fill. -/
def nextAdmitCol (adms : List AdmissionRow) : List (Option Int) :=
  bfill (nullElective (shiftNext adms))

/-! ### `DAYS_NEXT_ADMIT` and `OUTPUT_LABEL` (source lines 248, 252)

`DAYS_NEXT_ADMIT = (NEXT_ADMITTIME - DISCHTIME).dt.total_seconds()/(24*60*60)`
(NaN when `NEXT_ADMITTIME` is NaT);
`OUTPUT_LABEL = (DAYS_NEXT_ADMIT < 30).astype('int')` — a NaN comparison is
False, so a missing gap gives label 0. -/

def daysNextAdmit (next : Option Int) (disch : Int) : Option ℚ :=
  next.map fun tnext => ((tnext : ℚ) - (disch : ℚ)) / (24 * 60 * 60)

def outputLabel (d : Option ℚ) : Int :=
  match d with
  | some q => if q < 30 then 1 else 0
  | none => 0

def daysNextCol (adms : List AdmissionRow) : List (Option ℚ) :=
  List.zipWith (fun next r => daysNextAdmit next r.disch) (nextAdmitCol adms) adms

def outputLabelCol (adms : List AdmissionRow) : List Int :=
  (daysNextCol adms).map outputLabel

/-! ### Early-notes val/test selection (source lines 520-542)

`early_val = df_less_3[HADM_ID.isin(val_id_label.id)]` — no duration filter;
`actionable_ID_3days = df_adm[DURATION >= 3].HADM_ID`,
`test_actionable_id_label = test_id_label[id.isin(actionable_ID_3days)]`,
`early_test = df_less_3[HADM_ID.isin(test_actionable_id_label.id)]`; the
2-day block is identical with threshold 2 (and produces no val set at all).
An admission is embedded by its id and its `df_adm` `DURATION` (fractional
days); a chunk row of `df_less_n` by its admission id. -/

structure AdmDur where
  hadmId : Int
  duration : ℚ
deriving DecidableEq, Repr

structure NoteRow where
  hadmId : Int
deriving DecidableEq, Repr

def actionableIds (adms : List AdmDur) (n : ℚ) : List Int :=
  (adms.filter fun a => n ≤ a.duration).map AdmDur.hadmId

def earlyValSet (chunks : List NoteRow) (valIds : List Int) : List NoteRow :=
  chunks.filter fun c => valIds.contains c.hadmId

def earlyTestSet (adms : List AdmDur) (chunks : List NoteRow)
    (testIds : List Int) (n : ℚ) : List NoteRow :=
  chunks.filter fun c =>
    (testIds.filter fun i => (actionableIds adms n).contains i).contains c.hadmId

/-! ### SplitSampler (source lines 439-488)

`Series.sample(n, random_state)` draws `n` rows without replacement: it is a
pseudo-random shuffle of the series followed by taking the first `n`
elements.  Each of the six draws (`not_readmit_ID.sample(n=len(readmit_ID))`,
the two `frac=0.2` draws, the two `frac=0.5` draws and the
`df.sample(n=400)` reserve draw) gets its own shuffle function, constrained
only to be a permutation.  The row counts the `frac` draws produce are
carried as parameters `nVTt nVTf nVt nVf` (their exact values are irrelevant
to disjointness and balance).  `Series.drop(other.index)` removes exactly the
sampled rows; with unique admission ids (hypothesis of the main theorem) this
is the value-level filter used here.  `pd.concat` is list append and
`drop_duplicates(keep=False)` keeps the values occurring exactly once. -/

structure SplitShuffles where
  s1 : List Int → List Int
  s2 : List Int → List Int
  s3 : List Int → List Int
  s4 : List Int → List Int
  s5 : List Int → List Int
  s6 : List Int → List Int
  perm1 : ∀ xs, (s1 xs).Perm xs
  perm2 : ∀ xs, (s2 xs).Perm xs
  perm3 : ∀ xs, (s3 xs).Perm xs
  perm4 : ∀ xs, (s4 xs).Perm xs
  perm5 : ∀ xs, (s5 xs).Perm xs
  perm6 : ∀ xs, (s6 xs).Perm xs

/-- All six pseudo-random draws replaced by the identity shuffle. -/
def idShuffles : SplitShuffles :=
  ⟨id, id, id, id, id, id,
   fun xs => List.Perm.refl xs, fun xs => List.Perm.refl xs,
   fun xs => List.Perm.refl xs, fun xs => List.Perm.refl xs,
   fun xs => List.Perm.refl xs, fun xs => List.Perm.refl xs⟩

/-- `df_adm[df_adm.OUTPUT_LABEL == 1].HADM_ID` over (id, label) rows. -/
def readmit_ID (table : List (Int × Int)) : List Int :=
  (table.filter fun r => r.2 = 1).map Prod.fst

def not_readmit_ID (table : List (Int × Int)) : List Int :=
  (table.filter fun r => r.2 = 0).map Prod.fst

/-- `not_readmit_ID.sample(n=len(readmit_ID), random_state=1)`. -/
def not_readmit_ID_use (sh : SplitShuffles) (table : List (Int × Int)) :
    List Int :=
  (sh.s1 (not_readmit_ID table)).take (readmit_ID table).length

/-- `readmit_ID.sample(frac=0.2, random_state=1)`, drawing `nVTt` rows. -/
def id_val_test_t (sh : SplitShuffles) (table : List (Int × Int)) (nVTt : ℕ) :
    List Int :=
  (sh.s2 (readmit_ID table)).take nVTt

def id_val_test_f (sh : SplitShuffles) (table : List (Int × Int)) (nVTf : ℕ) :
    List Int :=
  (sh.s3 (not_readmit_ID_use sh table)).take nVTf

/-- `readmit_ID.drop(id_val_test_t.index)`. -/
def id_train_t (sh : SplitShuffles) (table : List (Int × Int)) (nVTt : ℕ) :
    List Int :=
  (readmit_ID table).filter fun i => i ∉ id_val_test_t sh table nVTt

def id_train_f (sh : SplitShuffles) (table : List (Int × Int)) (nVTf : ℕ) :
    List Int :=
  (not_readmit_ID_use sh table).filter fun i => i ∉ id_val_test_f sh table nVTf

def id_val_t (sh : SplitShuffles) (table : List (Int × Int)) (nVTt nVt : ℕ) :
    List Int :=
  (sh.s4 (id_val_test_t sh table nVTt)).take nVt

def id_test_t (sh : SplitShuffles) (table : List (Int × Int)) (nVTt nVt : ℕ) :
    List Int :=
  (id_val_test_t sh table nVTt).filter fun i => i ∉ id_val_t sh table nVTt nVt

def id_val_f (sh : SplitShuffles) (table : List (Int × Int)) (nVTf nVf : ℕ) :
    List Int :=
  (sh.s5 (id_val_test_f sh table nVTf)).take nVf

def id_test_f (sh : SplitShuffles) (table : List (Int × Int)) (nVTf nVf : ℕ) :
    List Int :=
  (id_val_test_f sh table nVTf).filter fun i => i ∉ id_val_f sh table nVTf nVf

def id_train (sh : SplitShuffles) (table : List (Int × Int)) (nVTt nVTf : ℕ) :
    List Int :=
  id_train_t sh table nVTt ++ id_train_f sh table nVTf

def id_val (sh : SplitShuffles) (table : List (Int × Int)) (nVTt nVTf nVt nVf : ℕ) :
    List Int :=
  id_val_t sh table nVTt nVt ++ id_val_f sh table nVTf nVf

def id_test (sh : SplitShuffles) (table : List (Int × Int)) (nVTt nVTf nVt nVf : ℕ) :
    List Int :=
  id_test_t sh table nVTt nVt ++ id_test_f sh table nVTf nVf

/-- `df = pd.concat([not_readmit_ID_use, not_readmit_ID]);
df = df.drop_duplicates(keep=False)` — the not-readmitted ids outside the
balanced subsample (each occurs once in the concatenation). -/
def df_surplus (sh : SplitShuffles) (table : List (Int × Int)) : List Int :=
  (not_readmit_ID_use sh table ++ not_readmit_ID table).filter fun i =>
    (not_readmit_ID_use sh table ++ not_readmit_ID table).count i = 1

/-- `not_readmit_ID_more = df.sample(n=400, random_state=1)`. -/
def not_readmit_ID_more (sh : SplitShuffles) (table : List (Int × Int)) :
    List Int :=
  (sh.s6 (df_surplus sh table)).take 400

/-- The admission ids feeding the chunk-level discharge training set:
`pd.concat([df_discharge[HADM_ID.isin(not_readmit_ID_more)], discharge_train])`. -/
def train_chunk_ids (sh : SplitShuffles) (table : List (Int × Int))
    (nVTt nVTf : ℕ) : List Int :=
  not_readmit_ID_more sh table ++ id_train sh table nVTt nVTf

theorem mem_dedupGo {α : Type} [DecidableEq α] (l acc : List α) (x : α) :
    x ∈ dedupGo acc l ↔ x ∈ acc ∨ x ∈ l := by
  induction l generalizing acc with
  | nil => simp [dedupGo]
  | cons a t ih =>
      simp only [dedupGo]
      by_cases h : a ∈ acc
      · simp only [if_pos h, ih]
        constructor
        · rintro (hx | hx)
          · exact Or.inl hx
          · exact Or.inr (List.mem_cons_of_mem _ hx)
        · rintro (hx | hx)
          · exact Or.inl hx
          · rcases List.mem_cons.mp hx with rfl | hx
            · exact Or.inl h
            · exact Or.inr hx
      · simp only [if_neg h, ih, List.mem_append, List.mem_singleton, List.mem_cons]
        tauto

theorem nodup_dedupGo {α : Type} [DecidableEq α] (l acc : List α)
    (hacc : acc.Nodup) : (dedupGo acc l).Nodup := by
  induction l generalizing acc with
  | nil => exact hacc
  | cons a t ih =>
      simp only [dedupGo]
      by_cases h : a ∈ acc
      · simpa [if_pos h] using ih acc hacc
      · rw [if_neg h]
        refine ih _ ?_
        rw [List.nodup_append]
        refine ⟨hacc, List.nodup_singleton a, ?_⟩
        intro b hb hba
        simp only [List.mem_singleton] at hba
        exact h (hba ▸ hb)

theorem length_dedupGo {α : Type} [DecidableEq α] (l acc : List α) :
    (dedupGo acc l).length ≤ acc.length + l.length := by
  induction l generalizing acc with
  | nil => simp [dedupGo]
  | cons a t ih =>
      simp only [dedupGo]
      by_cases h : a ∈ acc
      · rw [if_pos h]
        calc (dedupGo acc t).length ≤ acc.length + t.length := ih acc
          _ ≤ acc.length + (a :: t).length := by simp [Nat.add_le_add_iff_left]
      · rw [if_neg h]
        calc (dedupGo (acc ++ [a]) t).length ≤ (acc ++ [a]).length + t.length := ih _
          _ = acc.length + (a :: t).length := by simp; omega

theorem nodup_dedupKeepFirst {α : Type} [DecidableEq α] (l : List α) :
    (dedupKeepFirst l).Nodup :=
  nodup_dedupGo l [] List.nodup_nil

theorem length_dedupKeepFirst {α : Type} [DecidableEq α] (l : List α) :
    (dedupKeepFirst l).length ≤ l.length := by
  simpa using length_dedupGo l []

theorem join_fullChunks (x : List String) (n : ℕ) :
    (((List.range n).map fun j => (x.drop (j * 318)).take 318).flatten)
      = x.take (n * 318) := by
  induction n with
  | zero => simp
  | succ m ih =>
      rw [List.range_succ, List.map_append, List.flatten_append]
      simp only [List.map_cons, List.map_nil, List.flatten_cons, List.flatten_nil,
        List.append_nil, ih]
      rw [Nat.succ_mul, List.take_add]

theorem length_fullChunk (x : List String) (j : ℕ) (hj : j < x.length / 318) :
    ((x.drop (j * 318)).take 318).length = 318 := by
  have h1 : (j + 1) * 318 ≤ x.length / 318 * 318 :=
    Nat.mul_le_mul_right 318 hj
  have h2 : x.length / 318 * 318 ≤ x.length := Nat.div_mul_le_self _ _
  simp only [List.length_take, List.length_drop]
  omega

set_option maxRecDepth 10000 in
/-- Claim C4: for text splitting into `t` tokens, the chunker emits exactly
`t / 318` full chunks of exactly 318 tokens, contiguous, non-overlapping and
in original order (their concatenation is the corresponding prefix of the
token list, and the whole token list when the remainder chunk is kept), plus
one final chunk of exactly `t % 318` tokens iff `t % 318 > 10`; a 640-token
text yields two 318-token chunks, a 650-token text yields chunks of sizes
318, 318 and 14, and empty or whitespace-only text yields zero chunks. -/
theorem chunkText_spec (x : List String) :
    (chunkText x).length
        = x.length / 318 + (if x.length % 318 > 10 then 1 else 0)
    ∧ (∀ j, j < x.length / 318 →
        (chunkText x)[j]? = some ((x.drop (j * 318)).take 318)
          ∧ ((x.drop (j * 318)).take 318).length = 318)
    ∧ (chunkText x).flatten
        = (if x.length % 318 > 10 then x else x.take (x.length / 318 * 318))
    ∧ (x.length % 318 > 10 →
        (chunkText x).getLast? = some (x.drop (x.length / 318 * 318))
          ∧ (x.drop (x.length / 318 * 318)).length = x.length % 318)
    ∧ (chunkText (List.replicate 640 ("w"))).map List.length = [318, 318]
    ∧ (chunkText (List.replicate 650 ("w"))).map List.length = [318, 318, 14]
    ∧ chunkText (pySplit ("")) = [] ∧ chunkText (pySplit (" ")) = [] := by
  refine ⟨?_, ?_, ?_, ?_, by rfl, by rfl, by rfl, by rfl⟩
  · simp only [chunkText]
    by_cases h : x.length % 318 > 10 <;>
      simp [h, List.length_append, List.length_map, List.length_range]
  · intro j hj
    refine ⟨?_, length_fullChunk x j hj⟩
    simp only [chunkText]
    rw [List.getElem?_append, if_pos (by simpa using hj)]
    simp [List.getElem?_range, hj]
  · simp only [chunkText, List.flatten_append, join_fullChunks]
    by_cases h : x.length % 318 > 10
    · simp only [if_pos h, List.flatten_cons, List.flatten_nil, List.append_nil]
      exact List.take_append_drop (x.length / 318 * 318) x
    · simp [if_neg h]
  · intro h
    constructor
    · simp only [chunkText, if_pos h]
      exact List.getLast?_concat _
    · have h2 : x.length / 318 * 318 ≤ x.length := Nat.div_mul_le_self _ _
      simp only [List.length_drop]
      omega

set_option maxRecDepth 10000 in
/-- Witness for `chunkText_spec`: its inner hypotheses discharged on a concrete
650-token text. -/
theorem chunkText_spec_witness :
    ((chunkText (List.replicate 650 ("w")))[0]?
        = some (((List.replicate 650 ("w")).drop (0 * 318)).take 318))
    ∧ (chunkText (List.replicate 650 ("w"))).getLast?
        = some ((List.replicate 650 ("w")).drop
            ((List.replicate 650 ("w")).length / 318 * 318)) :=
  ⟨((chunkText_spec (List.replicate 650 ("w"))).2.1 0 (by decide)).1,
   ((chunkText_spec (List.replicate 650 ("w"))).2.2.2.1 (by decide)).1⟩

theorem lookup_isSome_iff (d : List (String × ℕ)) (a : String) :
    (d.lookup a).isSome ↔ a ∈ d.map Prod.fst := by
  induction d with
  | nil => simp [List.lookup]
  | cons p t ih =>
      rcases p with ⟨k, v⟩
      by_cases h : a = k
      · subst h
        simp [List.lookup]
      · have hb : (a == k) = false := by simpa using h
        simp only [List.lookup, hb, List.map_cons, List.mem_cons]
        rw [ih]
        constructor
        · exact Or.inr
        · rintro (rfl | hx)
          · exact absurd rfl h
          · exact hx

theorem newKeys_congr (t : List String) (s1 s2 : List String)
    (h : ∀ x, x ∈ s1 ↔ x ∈ s2) : newKeys s1 t = newKeys s2 t := by
  induction t generalizing s1 s2 with
  | nil => rfl
  | cons a t ih =>
      simp only [newKeys]
      by_cases ha : a ∈ s1
      · rw [if_pos ha, if_pos ((h a).mp ha)]
        exact ih s1 s2 h
      · rw [if_neg ha, if_neg (fun hx => ha ((h a).mpr hx))]
        refine congrArg _ (ih _ _ fun x => ?_)
        simp only [List.mem_cons]
        exact or_congr Iff.rfl (h x)

theorem featureToIdxGo_eq (fs : List String) (d : List (String × ℕ)) (idx : ℕ) :
    featureToIdxGo fs d idx = d ++ withIdx idx (newKeys (d.map Prod.fst) fs) := by
  induction fs generalizing d idx with
  | nil => simp [featureToIdxGo, newKeys, withIdx]
  | cons a t ih =>
      simp only [featureToIdxGo, newKeys]
      by_cases h : a ∈ d.map Prod.fst
      · rw [if_pos ((lookup_isSome_iff d a).mpr h), if_pos h]
        exact ih d idx
      · rw [if_neg (fun hs => h ((lookup_isSome_iff d a).mp hs)), if_neg h, ih]
        have hkeys : (d ++ [(a, idx)]).map Prod.fst = d.map Prod.fst ++ [a] := by
          simp
        rw [hkeys]
        have hcg : newKeys (d.map Prod.fst ++ [a]) t
            = newKeys (a :: d.map Prod.fst) t := by
          refine newKeys_congr t _ _ fun x => ?_
          simp only [List.mem_append, List.mem_singleton, List.mem_cons]
          tauto
        rw [hcg, List.append_assoc]
        simp [withIdx]

theorem dedupGo_eq_newKeys (l acc : List String) :
    dedupGo acc l = acc ++ newKeys acc l := by
  induction l generalizing acc with
  | nil => simp [dedupGo, newKeys]
  | cons a t ih =>
      simp only [dedupGo, newKeys]
      by_cases h : a ∈ acc
      · rw [if_pos h, if_pos h, ih]
      · rw [if_neg h, if_neg h, ih]
        have : newKeys (acc ++ [a]) t = newKeys (a :: acc) t := by
          refine newKeys_congr t _ _ fun x => ?_
          simp only [List.mem_append, List.mem_singleton, List.mem_cons]
          tauto
        rw [this, List.append_assoc]
        simp

theorem newKeys_filter_sentinel (fs : List String) (s : String) (seen : List String) :
    newKeys (s :: seen) fs = newKeys seen (fs.filter fun x => x ≠ s) := by
  induction fs generalizing seen with
  | nil => rfl
  | cons a t ih =>
      by_cases has : a = s
      · have h2 : ((a :: t).filter fun x => x ≠ s) = t.filter fun x => x ≠ s := by
          rw [List.filter_cons]
          simp [has]
        rw [h2]
        simp only [newKeys]
        rw [if_pos (by rw [has]; exact List.mem_cons_self _ _)]
        exact ih seen
      · have h2 : ((a :: t).filter fun x => x ≠ s)
            = a :: t.filter fun x => x ≠ s := by
          rw [List.filter_cons]
          simp [has]
        rw [h2]
        simp only [newKeys]
        by_cases hmem : a ∈ seen
        · rw [if_pos (List.mem_cons_of_mem _ hmem), if_pos hmem]
          exact ih seen
        · have h1 : a ∉ s :: seen := by
            intro hx
            rcases List.mem_cons.mp hx with h | h
            · exact has h
            · exact hmem h
          rw [if_neg h1, if_neg hmem]
          refine congrArg _ ?_
          rw [← ih (a :: seen)]
          refine newKeys_congr t _ _ fun x => ?_
          simp only [List.mem_cons]
          tauto

theorem withIdx_map_fst (l : List String) (idx : ℕ) :
    (withIdx idx l).map Prod.fst = l := by
  induction l generalizing idx with
  | nil => rfl
  | cons s t ih => simp [withIdx, ih]

theorem withIdx_map_snd (l : List String) (idx : ℕ) :
    (withIdx idx l).map Prod.snd = List.range' idx l.length := by
  induction l generalizing idx with
  | nil => rfl
  | cons s t ih => simp [withIdx, ih, List.range'_succ]

theorem lookup_mem_snd (d : List (String × ℕ)) (a : String) (i : ℕ)
    (h : d.lookup a = some i) : i ∈ d.map Prod.snd := by
  induction d with
  | nil => simp [List.lookup] at h
  | cons p t ih =>
      rcases p with ⟨k, v⟩
      by_cases hk : a = k
      · subst hk
        simp only [List.lookup, beq_self_eq_true] at h
        simp only [Option.some.injEq] at h
        simp [h]
      · simp only [List.lookup, beq_iff_eq, if_neg hk] at h
        have : (a == k) = false := by simpa using hk
        rw [this] at h
        exact List.mem_cons_of_mem _ (ih h)

theorem lookup_inj_of_nodup_snd (d : List (String × ℕ))
    (hnd : (d.map Prod.snd).Nodup) (c c' : String) (i : ℕ)
    (h1 : d.lookup c = some i) (h2 : d.lookup c' = some i) : c = c' := by
  induction d with
  | nil => simp [List.lookup] at h1
  | cons p t ih =>
      rcases p with ⟨k, v⟩
      simp only [List.map_cons, List.nodup_cons] at hnd
      by_cases hc : c = k <;> by_cases hc' : c' = k
      · rw [hc, hc']
      · exfalso
        have hbc : (c == k) = true := by simpa using hc
        have hbc' : (c' == k) = false := by simpa using hc'
        simp only [List.lookup, hbc, hbc'] at h1 h2
        have hv : v = i := by simpa using h1
        exact hnd.1 (hv ▸ lookup_mem_snd t c' i h2)
      · exfalso
        have hbc : (c == k) = false := by simpa using hc
        have hbc' : (c' == k) = true := by simpa using hc'
        simp only [List.lookup, hbc, hbc'] at h1 h2
        have hv : v = i := by simpa using h2
        exact hnd.1 (hv ▸ lookup_mem_snd t c i h1)
      · have hbc : (c == k) = false := by simpa using hc
        have hbc' : (c' == k) = false := by simpa using hc'
        simp only [List.lookup, hbc, hbc'] at h1 h2
        exact ih hnd.2 h1 h2

theorem featureToIdx_canonical (fs : List String) :
    featureToIdx fs
      = (("0"), 0) :: withIdx 1 (dedupKeepFirst (fs.filter fun s => s ≠ ("0"))) := by
  rw [featureToIdx, featureToIdxGo_eq]
  have hk : ([(("0"), 0)] : List (String × ℕ)).map Prod.fst = [("0")] := rfl
  rw [hk]
  have h1 : newKeys [("0")] fs = newKeys [] (fs.filter fun s => s ≠ ("0")) :=
    newKeys_filter_sentinel fs ("0") []
  have h2 : dedupKeepFirst (fs.filter fun s => s ≠ ("0"))
      = newKeys [] (fs.filter fun s => s ≠ ("0")) := by
    have := dedupGo_eq_newKeys (fs.filter fun s => s ≠ ("0")) []
    simpa [dedupKeepFirst] using this
  rw [h1, ← h2]
  rfl

/-- Claim C9: the built vocabulary always maps the sentinel `"0"` to index 0;
its keys are the sentinel followed by the other distinct input codes in
first-seen order; its indices are consecutive `0, 1, 2, ...` (so every
non-sentinel code gets an index starting at 1 in first-seen order); no key is
bound twice (no reassignment); and the code-to-index mapping is injective. -/
theorem featureToIdx_spec (fs : List String) :
    (featureToIdx fs).lookup ("0") = some 0
    ∧ (featureToIdx fs).map Prod.fst
        = ("0") :: dedupKeepFirst (fs.filter fun s => s ≠ ("0"))
    ∧ (featureToIdx fs).map Prod.snd = List.range (featureToIdx fs).length
    ∧ ((featureToIdx fs).map Prod.fst).Nodup
    ∧ (∀ c c' i, (featureToIdx fs).lookup c = some i →
        (featureToIdx fs).lookup c' = some i → c = c') := by
  have hform := featureToIdx_canonical fs
  have hfst : (featureToIdx fs).map Prod.fst
      = ("0") :: dedupKeepFirst (fs.filter fun s => s ≠ ("0")) := by
    rw [hform]
    simp [withIdx_map_fst]
  have hsnd : (featureToIdx fs).map Prod.snd
      = List.range (featureToIdx fs).length := by
    rw [hform]
    simp only [List.map_cons, withIdx_map_snd, List.length_cons]
    rw [List.range_eq_range', List.range'_succ]
    simp [withIdx_map_fst]
    have := congrArg List.length (withIdx_map_fst
      (dedupKeepFirst (fs.filter fun s => s ≠ ("0"))) 1)
    simpa using this.symm
  have hnodupSnd : ((featureToIdx fs).map Prod.snd).Nodup := by
    rw [hsnd]
    exact List.nodup_range _
  refine ⟨?_, hfst, hsnd, ?_, ?_⟩
  · rw [hform]
    rfl
  · rw [hfst]
    rw [List.nodup_cons]
    constructor
    · intro hmem
      have h0 := (mem_dedupGo (fs.filter fun s => s ≠ ("0")) [] ("0")).mp hmem
      simp at h0
    · exact nodup_dedupKeepFirst _
  · intro c c' i h1 h2
    exact lookup_inj_of_nodup_snd _ hnodupSnd c c' i h1 h2

/-- Witness for `featureToIdx_spec`: the injectivity conjunct's hypotheses
discharged on a concrete code sequence. -/
theorem featureToIdx_spec_witness :
    (featureToIdx [("a"), ("0"), ("a"), ("b")]).lookup ("0") = some 0
    ∧ (("a") : String) = ("a") :=
  ⟨(featureToIdx_spec ([("a"), ("0"), ("a"), ("b")])).1,
   (featureToIdx_spec ([("a"), ("0"), ("a"), ("b")])).2.2.2.2 ("a") ("a") 1
     (by decide) (by decide)⟩

theorem mapRowGo_fst (icd9TOCCSMap : List (String × String)) (icds : List String)
    (small : List (Option String)) (ccs : List String) :
    (mapRowGo icd9TOCCSMap small ccs icds).1
      = dedupGo small (icds.map getICDlevel1) := by
  induction icds generalizing small ccs with
  | nil => rfl
  | cons icd rest ih =>
      simp only [mapRowGo, List.map_cons, dedupGo]
      by_cases h : getICDlevel1 icd ∈ small
      · rw [if_pos h, if_pos h]
        exact ih _ _
      · rw [if_neg h, if_neg h]
        exact ih _ _

theorem mapRowGo_snd (icd9TOCCSMap : List (String × String)) (icds : List String)
    (small : List (Option String)) (ccs : List String) :
    (mapRowGo icd9TOCCSMap small ccs icds).2
      = ccs ++ icds.filterMap fun icd => icd9TOCCSMap.lookup icd := by
  induction icds generalizing small ccs with
  | nil => simp [mapRowGo]
  | cons icd rest ih =>
      simp only [mapRowGo, List.filterMap_cons]
      cases h : icd9TOCCSMap.lookup icd with
      | none => rw [ih]
      | some c => rw [ih, List.append_cons]

/-- Claim C5 counterexample: two distinct ICD codes mapped to the same CCS
group produce a duplicated entry in the row's group code list, so the group
list is not duplicate-free as claimed. -/
theorem ccs_list_duplicates_counterexample :
    (mapICD9toCCSRow [(("D_A1"), ("7")), (("D_B2"), ("7"))]
        [("D_A1"), ("D_B2")]).2 = [("7"), ("7")]
    ∧ ¬ (mapICD9toCCSRow [(("D_A1"), ("7")), (("D_B2"), ("7"))]
        [("D_A1"), ("D_B2")]).2.Nodup := by
  constructor
  · rfl
  · decide

/-- Claim C5 (amended): the hierarchy-reduced list is the order-preserving
first-occurrence deduplication of the reduced codes (hence duplicate-free),
the group (CCS) list collects the successful lookups in order but is NOT
deduplicated, and neither list is longer than the row's ICD code list. -/
theorem mapICD9toCCSRow_spec (icd9TOCCSMap : List (String × String))
    (icds : List String) :
    (mapICD9toCCSRow icd9TOCCSMap icds).1
        = dedupKeepFirst (icds.map getICDlevel1)
    ∧ (mapICD9toCCSRow icd9TOCCSMap icds).1.Nodup
    ∧ (mapICD9toCCSRow icd9TOCCSMap icds).1.length ≤ icds.length
    ∧ (mapICD9toCCSRow icd9TOCCSMap icds).2
        = icds.filterMap (fun icd => icd9TOCCSMap.lookup icd)
    ∧ (mapICD9toCCSRow icd9TOCCSMap icds).2.length ≤ icds.length := by
  have h1 : (mapICD9toCCSRow icd9TOCCSMap icds).1
      = dedupKeepFirst (icds.map getICDlevel1) :=
    mapRowGo_fst icd9TOCCSMap icds [] []
  have h2 : (mapICD9toCCSRow icd9TOCCSMap icds).2
      = icds.filterMap fun icd => icd9TOCCSMap.lookup icd := by
    have := mapRowGo_snd icd9TOCCSMap icds [] []
    simpa [mapICD9toCCSRow] using this
  refine ⟨h1, ?_, ?_, h2, ?_⟩
  · rw [h1]
    exact nodup_dedupKeepFirst _
  · rw [h1]
    calc (dedupKeepFirst (icds.map getICDlevel1)).length
        ≤ (icds.map getICDlevel1).length := length_dedupKeepFirst _
      _ = icds.length := List.length_map _ _
  · rw [h2]
    exact List.length_filterMap_le _ _

theorem medsGo (ndcCuiMap : List (String × String)) (vs : List (Option Int))
    (seen accV : List Int) (meds cuis : List String)
    (hm : meds = accV.map toString)
    (hiff : ∀ a : Int, a ≠ 0 → (ndcCuiMap.lookup (toString a)).isSome →
      (a ∈ seen ↔ a ∈ accV)) :
    (vs.foldl (medStep ndcCuiMap) ⟨seen, meds, cuis⟩).meds
      = (dedupGo accV (vs.filterMap (validNdc ndcCuiMap))).map toString := by
  induction vs generalizing seen accV meds cuis with
  | nil => simpa [dedupGo] using hm
  | cons v rest ih =>
      simp only [List.foldl_cons, List.filterMap_cons]
      cases v with
      | none =>
          simp only [medStep, validNdc]
          exact ih seen accV meds _ hm hiff
      | some a =>
          by_cases hseen : a ∈ seen
          · simp only [medStep, if_pos hseen]
            by_cases hval : a ≠ 0 ∧ (ndcCuiMap.lookup (toString a)).isSome
            · have haccV : a ∈ accV := (hiff a hval.1 hval.2).mp hseen
              simp only [validNdc, if_pos hval]
              simp only [dedupGo, if_pos haccV]
              exact ih seen accV meds _ hm hiff
            · simp only [validNdc, if_neg hval]
              exact ih seen accV meds _ hm hiff
          · by_cases hval : a ≠ 0 ∧ (ndcCuiMap.lookup (toString a)).isSome
            · have hinv : ¬ (a = 0 ∨ (ndcCuiMap.lookup (toString a)).isNone) := by
                rcases hval with ⟨h1, h2⟩
                rintro (rfl | hn)
                · exact h1 rfl
                · rw [Option.isNone_iff_eq_none] at hn
                  rw [hn] at h2
                  simp at h2
              simp only [medStep, if_neg hseen, if_neg hinv]
              have haccV : a ∉ accV := fun hx => hseen ((hiff a hval.1 hval.2).mpr hx)
              simp only [validNdc, if_pos hval]
              simp only [dedupGo, if_neg haccV]
              refine ih _ _ _ _ (by simp [hm]) ?_
              intro b hb1 hb2
              simp only [List.mem_cons, List.mem_append, List.mem_singleton]
              rw [← hiff b hb1 hb2]
              tauto
            · have hinv : a = 0 ∨ (ndcCuiMap.lookup (toString a)).isNone := by
                by_cases h0 : a = 0
                · exact Or.inl h0
                · right
                  cases h : ndcCuiMap.lookup (toString a) with
                  | none => simp
                  | some c => exact absurd ⟨h0, by simp [h]⟩ hval
              simp only [medStep, if_neg hseen, if_pos hinv]
              simp only [validNdc, if_neg hval]
              refine ih _ _ _ _ hm ?_
              intro b hb1 hb2
              simp only [List.mem_cons]
              rw [← hiff b hb1 hb2]
              have hba : b ≠ a := by
                rintro rfl
                exact hval ⟨hb1, hb2⟩
              constructor
              · rintro (h | h)
                · exact absurd h hba
                · exact h
              · exact Or.inr

/-- Claim C7: invalid values (missing, zero, or not a key of the NDC
universe) are excluded from the deduplicated medication list; the valid
values appear exactly once each, first occurrence first, as their string
forms; on the spec's own example `[123, 123, 0, NaN, 456]` against universe
`{"123", "456"}` the output is `["123", "456"]`. -/
theorem processMeds_meds_spec (ndcCuiMap : List (String × String))
    (vs : List (Option Int)) :
    (processMeds ndcCuiMap vs).meds
        = (dedupKeepFirst (vs.filterMap (validNdc ndcCuiMap))).map toString
    ∧ (processMeds [(("123"), ("c1")), (("456"), ("c2"))]
        [some 123, some 123, some 0, none, some 456]).meds
        = [("123"), ("456")] := by
  constructor
  · exact medsGo ndcCuiMap vs [] [] [] [] rfl (by intro a h1 h2; simp)
  · rfl

theorem toString_intZero : toString (0 : Int) = ("0") := rfl

/-- Claim C6 counterexample: with a concept table containing the key `"0"`,
a first-occurrence invalid value (7, not a key) is replaced by the sentinel
BEFORE the concept lookup, so the code resolves the key `"0"` and appends its
concept — the pre-replacement lookup of the claim would append nothing. -/
theorem cui_lookup_sentinel_counterexample :
    (processMeds [(("0"), ("C0"))] [some 7]).cuis = [("C0")]
    ∧ cuisPreReplacement [(("0"), ("C0"))] [some 7] = []
    ∧ (processMeds [(("0"), ("C0"))] [some 7]).cuis
        ≠ cuisPreReplacement [(("0"), ("C0"))] [some 7] := by
  refine ⟨rfl, rfl, by decide⟩

theorem cuiStep_nodup (ndcCuiMap : List (String × String)) (cuis : List String)
    (v : Int) (h : cuis.Nodup) : (cuiStep ndcCuiMap cuis v).Nodup := by
  unfold cuiStep
  cases ndcCuiMap.lookup (toString v) with
  | none => exact h
  | some cui =>
      by_cases hc : cui ∈ cuis
      · simpa [hc] using h
      · simp only [if_neg hc]
        rw [List.nodup_append]
        refine ⟨h, List.nodup_singleton _, ?_⟩
        intro b hb hbc
        simp only [List.mem_singleton] at hbc
        exact hc (hbc ▸ hb)

theorem cuisGo_nodup (ndcCuiMap : List (String × String))
    (vs : List (Option Int)) (st : MedState) (h : st.cuis.Nodup) :
    ((vs.foldl (medStep ndcCuiMap) st).cuis).Nodup := by
  induction vs generalizing st with
  | nil => exact h
  | cons v rest ih =>
      simp only [List.foldl_cons]
      cases v with
      | none => exact ih _ (cuiStep_nodup _ _ _ h)
      | some a =>
          simp only [medStep]
          by_cases hseen : a ∈ st.seen
          · rw [if_pos hseen]
            exact ih _ (cuiStep_nodup _ _ _ h)
          · rw [if_neg hseen]
            by_cases hinv : a = 0 ∨ (ndcCuiMap.lookup (toString a)).isNone
            · rw [if_pos hinv]
              exact ih _ (cuiStep_nodup _ _ _ h)
            · rw [if_neg hinv]
              exact ih _ (cuiStep_nodup _ _ _ h)

theorem cuisGo_eq (ndcCuiMap : List (String × String))
    (vs : List (Option Int)) (st : MedState)
    (h0 : ndcCuiMap.lookup ("0") = none) :
    ((vs.foldl (medStep ndcCuiMap) st).cuis)
      = vs.foldl (cuisSpecStep ndcCuiMap) st.cuis := by
  induction vs generalizing st with
  | nil => rfl
  | cons v rest ih =>
      simp only [List.foldl_cons]
      cases v with
      | none =>
          have hstep : medStep ndcCuiMap st none
              = { st with cuis := st.cuis } := by
            simp [medStep, cuiStep, toString_intZero, h0]
          rw [hstep]
          exact ih _
      | some a =>
          simp only [medStep]
          by_cases hseen : a ∈ st.seen
          · rw [if_pos hseen]
            rw [ih _]
            rfl
          · rw [if_neg hseen]
            by_cases hinv : a = 0 ∨ (ndcCuiMap.lookup (toString a)).isNone
            · rw [if_pos hinv]
              have hcui : cuiStep ndcCuiMap st.cuis 0 = st.cuis := by
                simp [cuiStep, toString_intZero, h0]
              have hspec : cuisSpecStep ndcCuiMap st.cuis (some a) = st.cuis := by
                rcases hinv with rfl | hn
                · simp [cuisSpecStep, toString_intZero, h0]
                · rw [Option.isNone_iff_eq_none] at hn
                  simp [cuisSpecStep, hn]
              rw [ih _]
              simp only [hcui, hspec]
            · rw [if_neg hinv]
              rw [ih _]
              rfl

/-- Claim C6 (amended): the concept list is duplicate-free (append only when
absent, skip on a lookup miss), but the lookup key is the value AFTER any
sentinel replacement; because replacement occurs exactly when the original
key is absent from the concept table's key set, the computed concept list
coincides with the pre-replacement resolution of the claim whenever `"0"` is
not itself a key of the concept table. -/
theorem processMeds_cuis_spec (ndcCuiMap : List (String × String))
    (vs : List (Option Int)) :
    (processMeds ndcCuiMap vs).cuis.Nodup
    ∧ (ndcCuiMap.lookup ("0") = none →
        (processMeds ndcCuiMap vs).cuis = cuisPreReplacement ndcCuiMap vs) := by
  constructor
  · exact cuisGo_nodup ndcCuiMap vs ⟨[], [], []⟩ List.nodup_nil
  · intro h0
    exact cuisGo_eq ndcCuiMap vs ⟨[], [], []⟩ h0

/-- Witness for `processMeds_cuis_spec`: its hypothesis discharged on a
concrete table without the key `"0"`. -/
theorem processMeds_cuis_spec_witness :
    (processMeds [(("5"), ("C5"))] [some 5, none, some 5]).cuis
      = cuisPreReplacement [(("5"), ("C5"))] [some 5, none, some 5] :=
  (processMeds_cuis_spec [(("5"), ("C5"))] [some 5, none, some 5]).2 (by decide)

theorem gum_go (ndcCuiMap : List (String × String)) (df : List MedRow)
    (A : List MedRowOut) (B : List (List String)) :
    df.foldl
      (fun acc row =>
        (acc.1 ++ [⟨row.hadmId, (processMeds ndcCuiMap row.ndc).meds⟩],
         acc.2 ++ [(processMeds ndcCuiMap row.ndc).cuis]))
      (A, B)
    = (A ++ df.map fun r =>
        (⟨r.hadmId, (processMeds ndcCuiMap r.ndc).meds⟩ : MedRowOut),
       B ++ df.map fun r => (processMeds ndcCuiMap r.ndc).cuis) := by
  induction df generalizing A B with
  | nil => simp
  | cons row rest ih =>
      simp only [List.foldl_cons, List.map_cons]
      rw [ih]
      simp

/-- Claim C10: the medication normalizer rewrites, row by row, exactly the
medication column (each row's raw value list becomes that row's deduplicated
code list) and leaves every other column (here the admission id) unchanged;
the returned concept lists are the per-row concept lists in row order. -/
theorem get_unique_ordered_medication_spec
    (ndcCuiMap : List (String × String)) (df : List MedRow) :
    (get_unique_ordered_medication ndcCuiMap df).1
        = (df.map fun r =>
            (⟨r.hadmId, (processMeds ndcCuiMap r.ndc).meds⟩ : MedRowOut))
    ∧ (get_unique_ordered_medication ndcCuiMap df).2
        = df.map fun r => (processMeds ndcCuiMap r.ndc).cuis := by
  unfold get_unique_ordered_medication
  rw [gum_go]
  simp

theorem firstSome_shiftNext (l : List AdmissionRow) :
    firstSome (nullElective (shiftNext l))
      = Option.map AdmissionRow.admitTime
          ((l.drop 1).find? fun a => a.admType ≠ ("ELECTIVE")) := by
  induction l with
  | nil => rfl
  | cons a t ih =>
      cases t with
      | nil => rfl
      | cons b t2 =>
          simp only [shiftNext, nullElective, List.map_cons, List.drop_succ_cons,
            List.drop_zero]
          by_cases hb : b.admType = ("ELECTIVE")
          · rw [if_pos hb]
            simp only [firstSome]
            have hfind : ((b :: t2).find? fun a => a.admType ≠ ("ELECTIVE"))
                = t2.find? fun a => a.admType ≠ ("ELECTIVE") := by
              rw [List.find?_cons]
              simp [hb]
            rw [hfind]
            have := ih
            simpa [nullElective] using this
          · rw [if_neg hb]
            simp only [firstSome]
            have hfind : ((b :: t2).find? fun a => a.admType ≠ ("ELECTIVE"))
                = some b := by
              rw [List.find?_cons]
              simp [hb]
            rw [hfind]
            rfl

/-- Claim C2: within one patient's chronologically sorted block, the derived
`NEXT_ADMITTIME` of row `i` is the admission time of the first later admission
whose type is not ELECTIVE (intervening elective admissions are skipped), and
`none` when no later non-elective admission exists. -/
theorem nextAdmitCol_spec (adms : List AdmissionRow) :
    nextAdmitCol adms
      = (List.range adms.length).map fun i =>
          Option.map AdmissionRow.admitTime
            ((adms.drop (i + 1)).find? fun a => a.admType ≠ ("ELECTIVE")) := by
  induction adms with
  | nil => rfl
  | cons a t ih =>
      cases t with
      | nil => rfl
      | cons b t2 =>
          have hne : nullElective (shiftNext (a :: b :: t2))
              = (if b.admType = ("ELECTIVE") then none else some b.admitTime)
                  :: nullElective (shiftNext (b :: t2)) := rfl
          have hlen : (a :: b :: t2).length = (b :: t2).length + 1 := rfl
          rw [nextAdmitCol, hne]
          simp only [bfill]
          rw [hlen, List.range_succ_eq_map, List.map_cons]
          refine List.cons_eq_cons.mpr ⟨?_, ?_⟩
          · by_cases hb : b.admType = ("ELECTIVE")
            · rw [if_pos hb]
              show firstSome (nullElective (shiftNext (b :: t2))) = _
              rw [firstSome_shiftNext (b :: t2)]
              simp only [List.drop_succ_cons, List.drop_zero, List.find?_cons]
              simp [hb]
            · rw [if_neg hb]
              show some b.admitTime = _
              simp only [List.drop_succ_cons, List.drop_zero, List.find?_cons]
              simp [hb]
          · rw [show bfill (nullElective (shiftNext (b :: t2)))
                = nextAdmitCol (b :: t2) from rfl, ih, List.map_map]
            refine List.map_congr_left fun i _ => ?_
            simp

theorem shiftNext_length (l : List AdmissionRow) :
    (shiftNext l).length = l.length := by
  induction l with
  | nil => rfl
  | cons a t ih =>
      cases t with
      | nil => rfl
      | cons b t2 => simpa [shiftNext] using ih

theorem bfill_length {α : Type} (l : List (Option α)) :
    (bfill l).length = l.length := by
  induction l with
  | nil => rfl
  | cons x t ih => simpa [bfill] using ih

theorem daysNextCol_length (adms : List AdmissionRow) :
    (daysNextCol adms).length = adms.length := by
  simp [daysNextCol, nextAdmitCol, bfill_length, nullElective, shiftNext_length]

/-- Claim C1 counterexample: a patient whose second (non-elective) admission
begins 30 days BEFORE the first admission's discharge (overlapping stays).
`DAYS_NEXT_ADMIT = -30` for the first row, and `(DAYS_NEXT_ADMIT < 30)` gives
label 1 even though `0 ≤ days_to_next_admit` fails, contradicting the claimed
`label = 1 ⇔ 0 ≤ days_to_next_admit < 30`. -/
theorem outputLabel_negative_gap_counterexample :
    (daysNextCol [⟨0, 86400 * 40, ("EMERGENCY")⟩,
        ⟨86400 * 10, 86400 * 12, ("EMERGENCY")⟩])[0]? = some (some (-30 : ℚ))
    ∧ (outputLabelCol [⟨0, 86400 * 40, ("EMERGENCY")⟩,
        ⟨86400 * 10, 86400 * 12, ("EMERGENCY")⟩])[0]? = some 1
    ∧ ¬ (0 ≤ (-30 : ℚ)) := by
  have hnext : nextAdmitCol [⟨0, 86400 * 40, ("EMERGENCY")⟩,
      ⟨86400 * 10, 86400 * 12, ("EMERGENCY")⟩] = [some (86400 * 10), none] := by
    decide
  have hdays : daysNextCol [⟨0, 86400 * 40, ("EMERGENCY")⟩,
      ⟨86400 * 10, 86400 * 12, ("EMERGENCY")⟩] = [some (-30 : ℚ), none] := by
    rw [daysNextCol, hnext]
    simp only [List.zipWith, daysNextAdmit, Option.map_some, Option.map_none]
    norm_num
  have hlabel : outputLabel (some (-30 : ℚ)) = 1 := by
    simp only [outputLabel]
    rw [if_pos (by norm_num)]
  refine ⟨by rw [hdays]; rfl, ?_, by norm_num⟩
  rw [outputLabelCol, hdays]
  simp only [List.map_cons, List.map_nil, hlabel]
  rfl

/-- Claim C1 (amended): for every row of the admission table, the readmission
label is 1 iff `DAYS_NEXT_ADMIT` is defined and `< 30`; a missing gap gives
label 0, but there is no lower bound — a negative gap (overlapping
admissions) also gets label 1. -/
theorem outputLabel_iff_daysNext (adms : List AdmissionRow) (i : ℕ)
    (hi : i < adms.length) :
    (outputLabelCol adms)[i]? = some 1
      ↔ ∃ q : ℚ, (daysNextCol adms)[i]? = some (some q) ∧ q < 30 := by
  have hi' : i < (daysNextCol adms).length := by
    rw [daysNextCol_length]
    exact hi
  obtain ⟨d, hd⟩ : ∃ d, (daysNextCol adms)[i]? = some d :=
    ⟨_, List.getElem?_eq_getElem hi'⟩
  rw [outputLabelCol, List.getElem?_map, hd]
  cases d with
  | none => simp [outputLabel]
  | some q =>
      by_cases hq : q < 30
      · simp [outputLabel, hq]
      · simp [outputLabel, hq]

/-- Claim C8 counterexample: an admission with a 1-day stay whose id is in
the validation split appears in the 3-day early-notes validation set — the
validation sets are NOT duration-filtered. -/
theorem earlyVal_duration_counterexample :
    earlyValSet [(⟨1⟩ : NoteRow)] [1] = [(⟨1⟩ : NoteRow)]
    ∧ ¬ (∀ c ∈ earlyValSet [(⟨1⟩ : NoteRow)] [1],
        ∀ a ∈ ([⟨1, 1⟩] : List AdmDur),
          a.hadmId = c.hadmId → (3 : ℚ) ≤ a.duration) := by
  constructor
  · rfl
  · intro h
    have h1 := h ⟨1⟩ (by decide) ⟨1, 1⟩ (by simp) rfl
    norm_num at h1

/-- Claim C8 (amended): the early-notes TEST sets are duration-filtered —
every chunk of the 3-day test set belongs to an admission with
`DURATION ≥ 3`, and every chunk of the 2-day test set to one with
`DURATION ≥ 2`; the 3-day validation set carries no such filter (see the
counterexample) and no 2-day validation set is produced. -/
theorem earlyTest_duration_spec (adms : List AdmDur) (chunks : List NoteRow)
    (testIds : List Int) :
    (∀ c ∈ earlyTestSet adms chunks testIds 3,
      ∃ a ∈ adms, a.hadmId = c.hadmId ∧ (3 : ℚ) ≤ a.duration)
    ∧ (∀ c ∈ earlyTestSet adms chunks testIds 2,
      ∃ a ∈ adms, a.hadmId = c.hadmId ∧ (2 : ℚ) ≤ a.duration) := by
  constructor <;>
  · intro c hc
    rw [earlyTestSet, List.mem_filter] at hc
    have hact := hc.2
    rw [List.contains_iff_exists_mem_beq] at hact
    obtain ⟨i, hi, hbeq⟩ := hact
    rw [List.mem_filter] at hi
    have hia := hi.2
    rw [List.contains_iff_exists_mem_beq] at hia
    obtain ⟨j, hj, hjbeq⟩ := hia
    rw [actionableIds, List.mem_map] at hj
    obtain ⟨a, ha, rfl⟩ := hj
    rw [List.mem_filter] at ha
    refine ⟨a, ha.1, ?_, by simpa using ha.2⟩
    have h1 : c.hadmId = i := by simpa using hbeq
    have h2 : i = a.hadmId := by simpa using hjbeq
    rw [h1, h2]

/-- Witness for `earlyTest_duration_spec`: its membership hypothesis
discharged on a concrete 5-day admission in the test split. -/
theorem earlyTest_duration_spec_witness :
    ∃ a ∈ ([⟨1, 5⟩] : List AdmDur),
      a.hadmId = (⟨1⟩ : NoteRow).hadmId ∧ (3 : ℚ) ≤ a.duration :=
  (earlyTest_duration_spec [⟨1, 5⟩] [⟨1⟩] [1]).1 ⟨1⟩ (by
    rw [earlyTestSet, List.mem_filter]
    refine ⟨by simp, ?_⟩
    have h3 : actionableIds [(⟨1, 5⟩ : AdmDur)] 3 = [1] := by
      rw [actionableIds, List.filter_cons]
      norm_num
    simp [h3])

theorem take_shuffle_subset (f : List Int → List Int)
    (hperm : ∀ xs, (f xs).Perm xs) (xs : List Int) (n : ℕ) :
    (f xs).take n ⊆ xs := fun _ ha =>
  (hperm xs).mem_iff.mp (List.take_subset n (f xs) ha)

theorem eq_of_fst_eq_of_nodup_keys {l : List (Int × Int)}
    (h : (l.map Prod.fst).Nodup) {p q : Int × Int}
    (hp : p ∈ l) (hq : q ∈ l) (hfst : p.1 = q.1) : p = q := by
  induction l with
  | nil => cases hp
  | cons r t ih =>
      simp only [List.map_cons, List.nodup_cons] at h
      rcases List.mem_cons.mp hp with rfl | hp2
      · rcases List.mem_cons.mp hq with rfl | hq2
        · rfl
        · exact absurd (hfst ▸ List.mem_map_of_mem Prod.fst hq2) h.1
      · rcases List.mem_cons.mp hq with rfl | hq2
        · refine absurd ?_ h.1
          have hm := List.mem_map_of_mem Prod.fst hp2
          rwa [hfst] at hm
        · exact ih h.2 hp2 hq2

theorem readmit_not_readmit_exclusive (table : List (Int × Int))
    (hids : (table.map Prod.fst).Nodup) (x : Int)
    (hr : x ∈ readmit_ID table) (hn : x ∈ not_readmit_ID table) : False := by
  rw [readmit_ID, List.mem_map] at hr
  rw [not_readmit_ID, List.mem_map] at hn
  obtain ⟨p, hp, hpx⟩ := hr
  obtain ⟨q, hq, hqx⟩ := hn
  rw [List.mem_filter] at hp hq
  have hpq : p = q :=
    eq_of_fst_eq_of_nodup_keys hids hp.1 hq.1 (by rw [hpx, hqx])
  have h1 : p.2 = 1 := by simpa using hp.2
  have h0 : q.2 = 0 := by simpa using hq.2
  rw [hpq, h0] at h1
  cases h1

theorem mem_df_surplus (sh : SplitShuffles) (table : List (Int × Int))
    (x : Int) (hx : x ∈ df_surplus sh table) :
    x ∈ not_readmit_ID table ∧ x ∉ not_readmit_ID_use sh table := by
  rw [df_surplus, List.mem_filter] at hx
  obtain ⟨hmem, hcount⟩ := hx
  have hc : (not_readmit_ID_use sh table ++ not_readmit_ID table).count x = 1 := by
    simpa using hcount
  rw [List.count_append] at hc
  by_cases hu : x ∈ not_readmit_ID_use sh table
  · exfalso
    have h1 : 0 < (not_readmit_ID_use sh table).count x :=
      List.count_pos_iff.mpr hu
    have h2 : 0 < (not_readmit_ID table).count x :=
      List.count_pos_iff.mpr (take_shuffle_subset sh.s1 sh.perm1 _ _ hu)
    omega
  · refine ⟨?_, hu⟩
    rcases List.mem_append.mp hmem with h | h
    · exact absurd h hu
    · exact h

theorem mem_not_readmit_ID_more (sh : SplitShuffles) (table : List (Int × Int))
    (x : Int) (hx : x ∈ not_readmit_ID_more sh table) :
    x ∈ not_readmit_ID table ∧ x ∉ not_readmit_ID_use sh table :=
  mem_df_surplus sh table x (take_shuffle_subset sh.s6 sh.perm6 _ _ hx)

/-- Claim C3: the train, validation and test admission-id sets are pairwise
disjoint, they remain disjoint from val/test after the 400-admission reserve
draw is unioned into the chunk-level training ids, and the balanced pool
holds exactly as many sampled not-readmitted ids as readmitted ids. -/
theorem split_disjoint_balanced (sh : SplitShuffles) (table : List (Int × Int))
    (nVTt nVTf nVt nVf : ℕ)
    (hids : (table.map Prod.fst).Nodup)
    (hsize : (readmit_ID table).length ≤ (not_readmit_ID table).length) :
    (id_train sh table nVTt nVTf).Disjoint (id_val sh table nVTt nVTf nVt nVf)
    ∧ (id_train sh table nVTt nVTf).Disjoint (id_test sh table nVTt nVTf nVt nVf)
    ∧ (id_val sh table nVTt nVTf nVt nVf).Disjoint (id_test sh table nVTt nVTf nVt nVf)
    ∧ (train_chunk_ids sh table nVTt nVTf).Disjoint (id_val sh table nVTt nVTf nVt nVf)
    ∧ (train_chunk_ids sh table nVTt nVTf).Disjoint (id_test sh table nVTt nVTf nVt nVf)
    ∧ (not_readmit_ID_use sh table).length = (readmit_ID table).length := by
  have hRN : ∀ x, x ∈ readmit_ID table → x ∉ not_readmit_ID table :=
    fun x hr hn => readmit_not_readmit_exclusive table hids x hr hn
  have hUse : ∀ x, x ∈ not_readmit_ID_use sh table → x ∈ not_readmit_ID table :=
    fun x hx => take_shuffle_subset sh.s1 sh.perm1 _ _ hx
  have hVTt : ∀ x, x ∈ id_val_test_t sh table nVTt → x ∈ readmit_ID table :=
    fun x hx => take_shuffle_subset sh.s2 sh.perm2 _ _ hx
  have hVTf : ∀ x, x ∈ id_val_test_f sh table nVTf →
      x ∈ not_readmit_ID_use sh table :=
    fun x hx => take_shuffle_subset sh.s3 sh.perm3 _ _ hx
  have hVt : ∀ x, x ∈ id_val_t sh table nVTt nVt →
      x ∈ id_val_test_t sh table nVTt :=
    fun x hx => take_shuffle_subset sh.s4 sh.perm4 _ _ hx
  have hVf : ∀ x, x ∈ id_val_f sh table nVTf nVf →
      x ∈ id_val_test_f sh table nVTf :=
    fun x hx => take_shuffle_subset sh.s5 sh.perm5 _ _ hx
  have hTrT : ∀ x, x ∈ id_train_t sh table nVTt →
      x ∈ readmit_ID table ∧ x ∉ id_val_test_t sh table nVTt := by
    intro x hx
    simpa [id_train_t, List.mem_filter] using hx
  have hTrF : ∀ x, x ∈ id_train_f sh table nVTf →
      x ∈ not_readmit_ID_use sh table ∧ x ∉ id_val_test_f sh table nVTf := by
    intro x hx
    simpa [id_train_f, List.mem_filter] using hx
  have hTeT : ∀ x, x ∈ id_test_t sh table nVTt nVt →
      x ∈ id_val_test_t sh table nVTt ∧ x ∉ id_val_t sh table nVTt nVt := by
    intro x hx
    simpa [id_test_t, List.mem_filter] using hx
  have hTeF : ∀ x, x ∈ id_test_f sh table nVTf nVf →
      x ∈ id_val_test_f sh table nVTf ∧ x ∉ id_val_f sh table nVTf nVf := by
    intro x hx
    simpa [id_test_f, List.mem_filter] using hx
  have hTrainVal : (id_train sh table nVTt nVTf).Disjoint
      (id_val sh table nVTt nVTf nVt nVf) := by
    intro x hx hy
    rcases List.mem_append.mp hx with hx | hx <;>
      rcases List.mem_append.mp hy with hy | hy
    · exact (hTrT x hx).2 (hVt x hy)
    · exact hRN x (hTrT x hx).1 (hUse x (hVTf x (hVf x hy)))
    · exact hRN x (hVTt x (hVt x hy)) (hUse x (hTrF x hx).1)
    · exact (hTrF x hx).2 (hVf x hy)
  have hTrainTest : (id_train sh table nVTt nVTf).Disjoint
      (id_test sh table nVTt nVTf nVt nVf) := by
    intro x hx hy
    rcases List.mem_append.mp hx with hx | hx <;>
      rcases List.mem_append.mp hy with hy | hy
    · exact (hTrT x hx).2 (hTeT x hy).1
    · exact hRN x (hTrT x hx).1 (hUse x (hVTf x (hTeF x hy).1))
    · exact hRN x (hVTt x (hTeT x hy).1) (hUse x (hTrF x hx).1)
    · exact (hTrF x hx).2 (hTeF x hy).1
  have hValTest : (id_val sh table nVTt nVTf nVt nVf).Disjoint
      (id_test sh table nVTt nVTf nVt nVf) := by
    intro x hx hy
    rcases List.mem_append.mp hx with hx | hx <;>
      rcases List.mem_append.mp hy with hy | hy
    · exact (hTeT x hy).2 hx
    · exact hRN x (hVTt x (hVt x hx)) (hUse x (hVTf x (hTeF x hy).1))
    · exact hRN x (hVTt x (hTeT x hy).1) (hUse x (hVTf x (hVf x hx)))
    · exact (hTeF x hy).2 hx
  have hMoreVal : ∀ x, x ∈ not_readmit_ID_more sh table →
      x ∈ id_val sh table nVTt nVTf nVt nVf → False := by
    intro x hx hy
    obtain ⟨hN, hNu⟩ := mem_not_readmit_ID_more sh table x hx
    rcases List.mem_append.mp hy with hy | hy
    · exact hRN x (hVTt x (hVt x hy)) hN
    · exact hNu (hVTf x (hVf x hy))
  have hMoreTest : ∀ x, x ∈ not_readmit_ID_more sh table →
      x ∈ id_test sh table nVTt nVTf nVt nVf → False := by
    intro x hx hy
    obtain ⟨hN, hNu⟩ := mem_not_readmit_ID_more sh table x hx
    rcases List.mem_append.mp hy with hy | hy
    · exact hRN x (hVTt x (hTeT x hy).1) hN
    · exact hNu (hVTf x (hTeF x hy).1)
  refine ⟨hTrainVal, hTrainTest, hValTest, ?_, ?_, ?_⟩
  · intro x hx hy
    rcases List.mem_append.mp hx with hx | hx
    · exact hMoreVal x hx hy
    · exact hTrainVal hx hy
  · intro x hx hy
    rcases List.mem_append.mp hx with hx | hx
    · exact hMoreTest x hx hy
    · exact hTrainTest hx hy
  · rw [not_readmit_ID_use, List.length_take, (sh.perm1 _).length_eq]
    exact Nat.min_eq_left hsize

/-- Witness for `split_disjoint_balanced`: its hypotheses discharged on a
concrete three-admission table with identity shuffles. -/
theorem split_disjoint_balanced_witness :
    (not_readmit_ID_use idShuffles [(1, 1), (2, 0), (3, 0)]).length
      = (readmit_ID [(1, 1), (2, 0), (3, 0)]).length :=
  (split_disjoint_balanced idShuffles [(1, 1), (2, 0), (3, 0)] 1 1 1 0
    (by decide) (by decide)).2.2.2.2.2

/-- Witness for `outputLabel_iff_daysNext`: its hypotheses discharged on a
concrete one-day readmission gap. -/
theorem outputLabel_iff_daysNext_witness :
    (outputLabelCol [⟨0, 86400, ("EMERGENCY")⟩,
        ⟨86400 * 2, 86400 * 3, ("EMERGENCY")⟩])[0]? = some 1 :=
  (outputLabel_iff_daysNext [⟨0, 86400, ("EMERGENCY")⟩,
      ⟨86400 * 2, 86400 * 3, ("EMERGENCY")⟩] 0 (by decide)).mpr
    ⟨1, by
      have hnext : nextAdmitCol [⟨0, 86400, ("EMERGENCY")⟩,
          ⟨86400 * 2, 86400 * 3, ("EMERGENCY")⟩] = [some (86400 * 2), none] := by
        decide
      rw [daysNextCol, hnext]
      simp only [List.zipWith, daysNextAdmit, Option.map_some]
      norm_num, by norm_num⟩
